import Mathlib

/-!
Verification of the `repo-summarizer` directory-summary tool.

The Rust sources (`src/summarizer.rs`, `src/stats.rs`) are shallowly embedded
below.  Filesystem access, the `glob` pattern compiler and the `infer`
byte-signature sniffer are external effects; they are modelled as explicit
oracle functions bundled in an `FS` record, so that every embedded function is
a pure, executable Lean definition.  The `ptree` crate's `TreeBuilder`, which
`summarizer.rs` drives, is embedded from the crate's implementation:
`begin_child` appends a fresh child node at the current cursor level and
descends into it, `add_empty_child` appends a leaf, and `end_child` moves the
cursor back up.  Machine integers (`usize` counters) stay far below overflow
in every statement proved here, so they are modelled as `Nat`.
-/

namespace RepoSummarizer

/-- A filesystem path, as its list of components (Rust `Path` components). -/
abbrev FPath := List String

/-- Display form of a path (Rust `to_string_lossy`), components joined by `/`. -/
def pathToString (p : FPath) : String := String.intercalate "/" p

/-- Rust `path.file_name().unwrap_or_default()`: the last component, `""` if none. -/
def fileName (p : FPath) : String := p.getLastD ""

/-- Rust `path.parent()`: drop the last component; `none` for the empty path. -/
def parent? (p : FPath) : Option FPath :=
  if p.isEmpty then none else some p.dropLast

/-- The `Some(parent) if !parent.as_os_str().is_empty()` match guard used in
`summarizer.rs`: the parent, provided it exists and is non-empty. -/
def nonEmptyParent? (p : FPath) : Option FPath :=
  match parent? p with
  | some par => if par.isEmpty then none else some par
  | none => none

/-- Rust `path.strip_prefix(base).unwrap_or(path)`. -/
def stripPre (p base : FPath) : FPath :=
  if base.isPrefixOf p then p.drop base.length else p

/-- Rust `s.starts_with('.')`. -/
def startsWithDot (s : String) : Bool :=
  match s.toList with
  | [] => false
  | c :: _ => c == '.'

/-! Model of the `ptree` crate's `StringItem` and `TreeBuilder`. -/

/-- One node of the `ptree` tree: a label and its ordered children. -/
structure StringItem where
  text : String
  children : List StringItem

/-- Apply `f` to the last element of a list, if any (Rust `last_mut`). -/
def modifyLast (f : α → α) : List α → List α
  | [] => []
  | [a] => [f a]
  | a :: b :: rest => a :: modifyLast f (b :: rest)

/-- `ptree`'s `append_child_level`: descend `level` times through the last
child and append `child` there. -/
def appendChildLevel : StringItem → Nat → StringItem → StringItem
  | item, 0, child => ⟨item.text, item.children ++ [child]⟩
  | item, l + 1, child =>
      ⟨item.text, modifyLast (fun c => appendChildLevel c l child) item.children⟩

/-- `ptree::TreeBuilder`: the tree under construction plus the cursor level. -/
structure TreeBuilder where
  item : StringItem
  level : Nat

/-- `TreeBuilder::new`. -/
def TreeBuilder.new (text : String) : TreeBuilder := ⟨⟨text, []⟩, 0⟩

/-- `TreeBuilder::begin_child`: append a fresh child with label `text` at the
current level and make it current.  Note that this always creates a new node;
it never looks up an existing child by its label. -/
def TreeBuilder.beginChild (tb : TreeBuilder) (text : String) : TreeBuilder :=
  ⟨appendChildLevel tb.item tb.level ⟨text, []⟩, tb.level + 1⟩

/-- `TreeBuilder::end_child`. -/
def TreeBuilder.endChild (tb : TreeBuilder) : TreeBuilder :=
  ⟨tb.item, tb.level - 1⟩

/-- `TreeBuilder::add_empty_child`: `begin_child` followed by `end_child`. -/
def TreeBuilder.addEmptyChild (tb : TreeBuilder) (text : String) : TreeBuilder :=
  (tb.beginChild text).endChild

/-- Count the nodes of a tree (root included) whose label is `s`, with a fuel
bound on the depth so that the definition is structurally recursive. -/
def countLabelAux : Nat → String → StringItem → Nat
  | 0, _, _ => 0
  | fuel + 1, s, t =>
      (if t.text = s then 1 else 0) + (t.children.map (countLabelAux fuel s)).sum

/-! Traversal entries and the filesystem / external-crate oracles. -/

/-- The file-type tag of a traversal entry (`ignore::DirEntry::file_type`). -/
inductive FType
  | file
  | dir
  | symlink
deriving DecidableEq

/-- A traversal entry: its path and its (possibly missing) file type. -/
structure DirEntry where
  path : FPath
  ftype : Option FType

/-- External effects, as pure oracles: `std::fs::read`, the `infer` crate's
byte-signature sniffer, `Path::is_dir`, `std::fs::read_link` (already in
display form), `std::fs::read_to_string`, and `File::open` followed by
`BufRead::lines` (each item of the returned list is one line-read attempt,
which Rust's iterator yields as `Ok(line)` or `Err(e)`). -/
structure FS where
  readFile : FPath → Option (List Nat)
  inferIsBinary : List Nat → Bool
  isDir : FPath → Bool
  readLink : FPath → Option String
  readToString : FPath → Except String String
  openLines : FPath → Except String (List (Except String String))

/-- `is_binary_file` from `summarizer.rs`: read the bytes; if the `infer`
sniffer says binary, or a NUL byte occurs among the first 8000 bytes, report
binary; an unreadable file is reported as not binary.  `Err` is never built. -/
def is_binary_file (fs : FS) (p : FPath) : Except String Bool :=
  match fs.readFile p with
  | some buffer =>
      if fs.inferIsBinary buffer then Except.ok true
      else if (buffer.take 8000).any (fun b => b == 0) then Except.ok true
      else Except.ok false
  | none => Except.ok false

/-- Loop body of `add_dir_to_tree`: walk the components of `dirPath`, and for
each prefix not yet in the visited set, append it under a node labelled with
its parent prefix (or with the base directory for a top-level component). -/
def addDirLoop (base : FPath) : List String → FPath → TreeBuilder → List FPath →
    TreeBuilder × List FPath
  | [], _, tb, added => (tb, added)
  | comp :: rest, current, tb, added =>
      let prevPath := current
      let current' := current ++ [comp]
      let fullCurrent := base ++ current'
      if fullCurrent ∈ added then addDirLoop base rest current' tb added
      else
        let tb' :=
          if prevPath.isEmpty then
            ((tb.beginChild (pathToString base)).addEmptyChild comp).endChild
          else
            ((tb.beginChild (pathToString prevPath)).addEmptyChild comp).endChild
        addDirLoop base rest current' tb' (added ++ [fullCurrent])

/-- `add_dir_to_tree` from `summarizer.rs`: no-op when the directory's full
path was already visited, otherwise insert every unvisited prefix. -/
def add_dir_to_tree (dirPath base : FPath) (tb : TreeBuilder) (added : List FPath) :
    TreeBuilder × List FPath :=
  let fullPath := base ++ dirPath
  if fullPath ∈ added then (tb, added)
  else addDirLoop base dirPath [] tb added

/-- The parent-directory step of the file branch of `add_path_to_tree`:
returns the updated builder and visited set together with the label under
which the file leaf is attached. -/
def fileParentDir (rel base : FPath) (tb : TreeBuilder) (added : List FPath) :
    TreeBuilder × List FPath × String :=
  match nonEmptyParent? rel with
  | some par =>
      let r := add_dir_to_tree par base tb added
      (r.1, r.2, pathToString par)
  | none => (tb, added, pathToString base)

/-- `add_path_to_tree` from `summarizer.rs`. -/
def add_path_to_tree (fs : FS) (p base : FPath) (tb : TreeBuilder)
    (added : List FPath) : TreeBuilder × List FPath :=
  let relPath := stripPre p base
  if fs.isDir p then add_dir_to_tree relPath base tb added
  else
    let r := fileParentDir relPath base tb added
    ((((r.1).beginChild r.2.2).addEmptyChild (fileName p)).endChild, r.2.1)

/-- Display label of a symlink leaf: name plus ` -> target`, or
` -> [unreadable link]` when the target cannot be resolved. -/
def symlinkLabel (fs : FS) (p : FPath) : String :=
  fileName p ++
    (match fs.readLink p with
     | some t => " -> " ++ t
     | none => " -> [unreadable link]")

/-- Parent-directory step of the symlink branch of `process_entries`:
builder and visited set after inserting the parent chain, plus the
(relative) parent path, `[]` when there is none. -/
def symlinkParent (base : FPath) (tb : TreeBuilder) (added : List FPath)
    (rel : FPath) : TreeBuilder × List FPath × FPath :=
  match nonEmptyParent? rel with
  | some par =>
      let r := add_dir_to_tree par base tb added
      (r.1, r.2, par)
  | none => (tb, added, [])

/-- State threaded through `process_entries`: the tree builder, the visited
directory set `added_dirs`, and the accepted-file sequence `file_paths`. -/
structure BuildState where
  tb : TreeBuilder
  added : List FPath
  files : List FPath

/-- The symlink branch of `process_entries`: attach a labelled leaf under the
symlink's parent directory (or under the base label); the accepted-file
sequence is untouched. -/
def symlinkBranch (fs : FS) (base : FPath) (st : BuildState) (p : FPath) :
    BuildState :=
  { tb :=
      (let r := symlinkParent base st.tb st.added (stripPre p base)
       if r.2.2.isEmpty then
         (((r.1).beginChild (pathToString base)).addEmptyChild
             (symlinkLabel fs p)).endChild
       else
         (((r.1).beginChild (pathToString r.2.2)).addEmptyChild
             (symlinkLabel fs p)).endChild),
    added := (symlinkParent base st.tb st.added (stripPre p base)).2.1,
    files := st.files }

/-- One iteration of the `process_entries` loop.  An inaccessible entry is
logged and skipped; the entry equal to `base` is skipped; a file is classified
by `is_binary_file` (whose error, were it ever produced, would propagate as in
the Rust `?`) and, when not binary, inserted into the tree and appended to the
accepted files; a directory is inserted into the tree; a symlink becomes a
labelled leaf. -/
def processOne (fs : FS) (base : FPath) (st : BuildState)
    (res : Except String DirEntry) : Except String BuildState :=
  match res with
  | Except.error _ => Except.ok st
  | Except.ok entry =>
      if entry.path = base then Except.ok st
      else
        match entry.ftype with
        | some FType.file =>
            match is_binary_file fs entry.path with
            | Except.error e => Except.error e
            | Except.ok true => Except.ok st
            | Except.ok false =>
                let r := add_path_to_tree fs entry.path base st.tb st.added
                Except.ok ⟨r.1, r.2, st.files ++ [entry.path]⟩
        | some FType.dir =>
            let r := add_path_to_tree fs entry.path base st.tb st.added
            Except.ok ⟨r.1, r.2, st.files⟩
        | some FType.symlink => Except.ok (symlinkBranch fs base st entry.path)
        | none => Except.ok st

/-- `process_entries` from `summarizer.rs`, as a loop over the walker's
results. -/
def process_entries (fs : FS) (base : FPath) :
    List (Except String DirEntry) → BuildState → Except String BuildState
  | [], st => Except.ok st
  | r :: rest, st =>
      match processOne fs base st r with
      | Except.error e => Except.error e
      | Except.ok st' => process_entries fs base rest st'

/-- The traversal stage of `generate_summary`: a fresh tree labelled with the
input directory's display form, an empty accepted-file sequence, and the
visited set seeded with the base directory. -/
def runTraversal (fs : FS) (base : FPath) (entries : List (Except String DirEntry)) :
    Except String BuildState :=
  process_entries fs base entries ⟨TreeBuilder.new (pathToString base), [base], []⟩

/-! The walker's filter predicates, from `build_walker`. -/

/-- The standard dotfile exclusion added by `build_walker`: reject an entry
whose base name starts with `.`, except the literal names `.` and `..`. -/
def dotfileFilter (e : DirEntry) : Bool :=
  !(startsWithDot (fileName e.path) && !(fileName e.path == ".")
      && !(fileName e.path == ".."))

/-- One user exclude pattern, as added by `build_walker`: reject an entry
whose path string matches the compiled pattern; a pattern that fails to
compile (`compile pat = none`) matches nothing, mirroring
`glob::Pattern::new(..).map(..).unwrap_or(false)`.  The glob compiler itself
is external, so it is passed as the oracle `compile`. -/
def patternFilter (compile : String → Option (String → Bool)) (pat : String)
    (e : DirEntry) : Bool :=
  !(match compile pat with
    | some matcher => matcher (pathToString e.path)
    | none => false)

/-- The filter the built walker actually applies.  `ignore`'s
`WalkBuilder::filter_entry` stores a single predicate slot and each call
replaces the previous one, so after `build_walker` installs the dotfile rule
and then one rule per user pattern in order, only the last installed
predicate is live: the last pattern's rule, or the dotfile rule when there
are no patterns. -/
def walkerFilter (compile : String → Option (String → Bool)) (pats : List String)
    (e : DirEntry) : Bool :=
  match pats.getLast? with
  | some pat => patternFilter compile pat e
  | none => dotfileFilter e

/-- Recognizer for a walker result that is a regular-file entry at path `p`. -/
def isFileEntryAt (p : FPath) (r : Except String DirEntry) : Bool :=
  match r with
  | Except.ok e => decide (e.path = p ∧ e.ftype = some FType.file)
  | Except.error _ => false

/-! File extensions: the Rust `Path::extension` semantics used by
`collect_stats`, and the extension rule as the specification words it. -/

/-- Split a character list at its last `'.'`: `some (before, after)` with the
dot itself dropped, `none` when no dot occurs. -/
def splitLastDot : List Char → Option (List Char × List Char)
  | [] => none
  | c :: rest =>
      match splitLastDot rest with
      | some (b, a) => some (c :: b, a)
      | none => if c = '.' then some ([], rest) else none

/-- Rust `Path::extension` on a base name: `None` for `".."`, `None` when the
name has no dot, `None` when the only text before the last dot is empty (a
leading-dot name such as `".gitignore"`), otherwise the text after the last
dot. -/
def rustExtension (name : String) : Option String :=
  if name = ".." then none
  else
    match splitLastDot name.toList with
    | none => none
    | some (b, a) => if b = [] then none else some (String.mk a)

/-- The extension string computed by `collect_stats` for one file path:
`path.extension().and_then(to_str).unwrap_or("")`. -/
def statsExtension (p : FPath) : String :=
  (rustExtension (fileName p)).getD ""

/-- Modelled from the spec's words, for comparison with `statsExtension`:
"the substring of a file's base name after its last period, or empty if
none". -/
def specExtension (name : String) : String :=
  match splitLastDot name.toList with
  | none => ""
  | some (_, a) => String.mk a

/-! The statistics aggregator, from `stats.rs`. -/

/-- `FileStats` from `stats.rs`; the two hash maps are modelled as
association lists in key-insertion order. -/
structure FileStats where
  total_files : Nat
  total_directories : Nat
  total_lines : Nat
  extension_counts : List (String × Nat)
  extension_lines : List (String × Nat)

/-- `*map.entry(k).or_insert(0) += v` on an association list. -/
def bump (m : List (String × Nat)) (k : String) (v : Nat) : List (String × Nat) :=
  match m with
  | [] => [(k, v)]
  | (k', v') :: rest => if k' = k then (k', v' + v) :: rest else (k', v') :: bump rest k v

/-- Sum of the values of an association list (`map.values().sum()`). -/
def sumValues (m : List (String × Nat)) : Nat := (m.map Prod.snd).sum

/-- `count_lines` from `stats.rs`: open the file (propagating an open
failure), then count the items of the `lines()` iterator — each item, a
successful or failed line read, counts as one. -/
def count_lines (fs : FS) (p : FPath) : Except String Nat :=
  match fs.openLines p with
  | Except.error e => Except.error e
  | Except.ok items => Except.ok items.length

/-- The per-file closure of the parallel stage of `collect_stats`: the
extension paired with the line count, or the line-counting error. -/
def resultFor (fs : FS) (p : FPath) : Except String (String × Nat) :=
  match count_lines fs p with
  | Except.ok n => Except.ok (statsExtension p, n)
  | Except.error e => Except.error e

/-- One step of the sequential reduction of `collect_stats`: a successful
per-file result bumps both extension maps and the line total; a failed one is
logged and contributes nothing. -/
def statsStep (st : FileStats) (r : Except String (String × Nat)) : FileStats :=
  match r with
  | Except.ok q =>
      { st with
        extension_counts := bump st.extension_counts q.1 1,
        extension_lines := bump st.extension_lines q.1 q.2,
        total_lines := st.total_lines + q.2 }
  | Except.error _ => st

/-- The sequential reduction over the collected per-file results. -/
def statsFold (init : FileStats) (rs : List (Except String (String × Nat))) :
    FileStats :=
  rs.foldl statsStep init

/-- The distinct parent directories of the accepted files, as collected into a
`HashSet` by `collect_stats`. -/
def dirsOf (ps : List FPath) : List FPath :=
  ps.foldl
    (fun acc p =>
      match parent? p with
      | some par => if par ∈ acc then acc else acc ++ [par]
      | none => acc)
    []

/-- The counters of `collect_stats` before the reduction: file count, distinct
parent-directory count, and zeroed line counters and maps. -/
def initStats (ps : List FPath) : FileStats :=
  ⟨ps.length, (dirsOf ps).length, 0, [], []⟩

/-- `collect_stats` from `stats.rs`.  Rayon's `par_iter().map(..).collect()`
into a `Vec` preserves input order, so the collected result list is the map of
the per-file closure over the accepted files. -/
def collect_stats (fs : FS) (ps : List FPath) : FileStats :=
  statsFold (initStats ps) (ps.map (resultFor fs))

/-! A schedule-explicit model of the parallel stage, for the determinism
claim: worker tasks finish in an arbitrary order `sched`, each writing its
result into its own slot of the result vector. -/

/-- Execute the per-index tasks in the completion order `sched`; task `i`
writes `some (f i)` into slot `i`. -/
def runSchedule (f : Nat → α) (sched : List Nat) (slots : List (Option α)) :
    List (Option α) :=
  sched.foldl (fun acc i => acc.set i (some (f i))) slots

/-- The collected result vector of the parallel stage under completion order
`sched` over `n` tasks (`dflt` stands in for a slot no task wrote, which
cannot happen when every index is scheduled). -/
def parMap (f : Nat → α) (dflt : α) (n : Nat) (sched : List Nat) : List α :=
  (runSchedule f sched (List.replicate n none)).map (fun o => o.getD dflt)

/-- `collect_stats` with the parallel stage executed under an explicit task
completion order `sched`; the reduction itself is sequential, exactly as in
`collect_stats`. -/
def collect_stats_par (fs : FS) (sched : List Nat) (ps : List FPath) : FileStats :=
  statsFold (initStats ps)
    (parMap (fun i => resultFor fs (ps.getD i [])) (Except.error "") ps.length sched)

/-! The content serializer, from `process_file_contents` in `summarizer.rs`.
The buffered output writer is modelled as the list of lines written so far,
one list element per `writeln!`. -/

/-- The separator `"-".repeat(80)`. -/
def sepLine : String := String.mk (List.replicate 80 '-')

/-- Helper for `rustLines`: split at `'\n'`, stripping one `'\r'` from the end
of a chunk that a newline terminates; `acc` holds the current chunk reversed.
Mirrors Rust `str::lines`, whose final line needs no terminator. -/
def linesGo : List Char → List Char → List (List Char)
  | [], acc => [acc.reverse]
  | c :: rest, acc =>
      if c = '\n' then
        (match acc with
         | '\r' :: a => a.reverse
         | a => a.reverse) ::
          (if rest.isEmpty then [] else linesGo rest [])
      else linesGo rest (c :: acc)

/-- Rust `content.lines()`. -/
def rustLines (s : String) : List String :=
  match s.toList with
  | [] => []
  | cs => (linesGo cs []).map String.mk

/-- One numbered content line: `writeln!(writer, "{} | {}", i + 1, line)` for
the `enumerate()` pair `(i, line)`. -/
def numberLine (q : Nat × String) : String :=
  toString (q.1 + 1) ++ " | " ++ q.2

/-- The inner `for (i, line) in content.lines().enumerate()` loop, appending
to the writer `w`. -/
def contentLoop (w : List String) (ls : List String) : List String :=
  ls.enum.foldl (fun acc q => acc ++ [numberLine q]) w

/-- `process_file_contents` from `summarizer.rs`: for each accepted file emit
the path header, a separator, the numbered content lines (or one error line
when the text cannot be read), a closing separator and a blank line. -/
def writeFileContents (fs : FS) : List FPath → List String → List String
  | [], w => w
  | p :: rest, w =>
      let w2 := (w ++ [pathToString p ++ ":"]) ++ [sepLine]
      let w3 :=
        match fs.readToString p with
        | Except.ok content => contentLoop w2 (rustLines content)
        | Except.error err => w2 ++ ["Error reading file: " ++ err]
      writeFileContents fs rest (w3 ++ [sepLine] ++ [""])

/-- The closed-form block the serializer is specified to emit for one file. -/
def fileBlock (fs : FS) (p : FPath) : List String :=
  [pathToString p ++ ":", sepLine] ++
    (match fs.readToString p with
     | Except.ok content => (rustLines content).enum.map numberLine
     | Except.error err => ["Error reading file: " ++ err]) ++
  [sepLine, ""]

/-! Concrete fixtures used by the counterexample and witness theorems. -/

/-- A small consistent filesystem: every file reads as the two text bytes
`"hi"`, the sniffer reports nothing as binary, and a path is a directory
exactly when its base name has no dot. -/
def fsDemo : FS where
  readFile := fun _ => some [104, 105]
  inferIsBinary := fun _ => false
  isDir := fun p => !(fileName p).toList.contains '.'
  readLink := fun _ => none
  readToString := fun _ => Except.ok "hi"
  openLines := fun _ => Except.ok [Except.ok "hi"]

/-- A filesystem on which every read fails. -/
def fsNone : FS where
  readFile := fun _ => none
  inferIsBinary := fun _ => false
  isDir := fun _ => false
  readLink := fun _ => none
  readToString := fun _ => Except.error "denied"
  openLines := fun _ => Except.error "denied"

/-- A filesystem whose files consist of a single NUL byte. -/
def fsNul : FS where
  readFile := fun _ => some [0]
  inferIsBinary := fun _ => false
  isDir := fun _ => false
  readLink := fun _ => none
  readToString := fun _ => Except.error "stream did not contain valid UTF-8"
  openLines := fun _ => Except.ok []

/-- A filesystem on which opening succeeds but the second line read fails. -/
def fsOpen : FS where
  readFile := fun _ => some [104]
  inferIsBinary := fun _ => false
  isDir := fun _ => false
  readLink := fun _ => none
  readToString := fun _ => Except.ok "hi"
  openLines := fun _ => Except.ok [Except.ok "hi", Except.error "bad byte"]

/-- The canonicalized input directory of the demonstration runs. -/
def demoBase : FPath := ["/repo"]

/-- Walker output for the nested-path scenario of the spec: the directories
`src` and `src/lib` and the file `src/lib/mod.rs`. -/
def demoEntries : List (Except String DirEntry) :=
  [Except.ok ⟨["/repo", "src"], some FType.dir⟩,
   Except.ok ⟨["/repo", "src", "lib"], some FType.dir⟩,
   Except.ok ⟨["/repo", "src", "lib", "mod.rs"], some FType.file⟩]

/-- Walker output containing the root directory itself and one text file. -/
def rootEntries : List (Except String DirEntry) :=
  [Except.ok ⟨["/repo"], some FType.dir⟩,
   Except.ok ⟨["/repo", "a.txt"], some FType.file⟩]

/-- Walker output with a single accepted top-level file. -/
def singleEntries : List (Except String DirEntry) :=
  [Except.ok ⟨["/repo", "main.rs"], some FType.file⟩]

/-! Helper lemmas. -/

theorem sumValues_bump (m : List (String × Nat)) (k : String) (v : Nat) :
    sumValues (bump m k v) = sumValues m + v := by
  induction m with
  | nil => simp [bump, sumValues]
  | cons hd tl ih =>
      obtain ⟨k', v'⟩ := hd
      by_cases h : k' = k
      · simp [bump, h, sumValues]
        omega
      · simp [bump, h, sumValues] at ih ⊢
        omega

/-- Value of a successful per-file result, zero for a failed one. -/
def okLines : Except String (String × Nat) → Nat
  | Except.ok q => q.2
  | Except.error _ => 0

/-- One for a successful per-file result, zero for a failed one. -/
def okOne : Except String (String × Nat) → Nat
  | Except.ok _ => 1
  | Except.error _ => 0

theorem statsFold_cons (init : FileStats) (r : Except String (String × Nat))
    (rest : List (Except String (String × Nat))) :
    statsFold init (r :: rest) = statsFold (statsStep init r) rest := rfl

theorem statsFold_total_lines (rs : List (Except String (String × Nat))) :
    ∀ init : FileStats,
      (statsFold init rs).total_lines = init.total_lines + (rs.map okLines).sum := by
  induction rs with
  | nil => intro init; simp [statsFold]
  | cons r rest ih =>
      intro init
      rw [statsFold_cons, ih]
      cases r with
      | ok q => simp [statsStep, okLines]; omega
      | error e => simp [statsStep, okLines]

theorem statsFold_sum_lines (rs : List (Except String (String × Nat))) :
    ∀ init : FileStats,
      sumValues (statsFold init rs).extension_lines =
        sumValues init.extension_lines + (rs.map okLines).sum := by
  induction rs with
  | nil => intro init; simp [statsFold]
  | cons r rest ih =>
      intro init
      rw [statsFold_cons, ih]
      cases r with
      | ok q => simp [statsStep, okLines, sumValues_bump]; omega
      | error e => simp [statsStep, okLines]

theorem statsFold_sum_counts (rs : List (Except String (String × Nat))) :
    ∀ init : FileStats,
      sumValues (statsFold init rs).extension_counts =
        sumValues init.extension_counts + (rs.map okOne).sum := by
  induction rs with
  | nil => intro init; simp [statsFold]
  | cons r rest ih =>
      intro init
      rw [statsFold_cons, ih]
      cases r with
      | ok q => simp [statsStep, okOne, sumValues_bump]; omega
      | error e => simp [statsStep, okOne]

theorem statsFold_total_files (rs : List (Except String (String × Nat))) :
    ∀ init : FileStats, (statsFold init rs).total_files = init.total_files := by
  induction rs with
  | nil => intro init; simp [statsFold]
  | cons r rest ih =>
      intro init
      rw [statsFold_cons, ih]
      cases r with
      | ok q => simp [statsStep]
      | error e => simp [statsStep]

theorem length_eq_ok_add_err (fs : FS) (ps : List FPath) :
    ps.length = ((ps.map (resultFor fs)).map okOne).sum +
      (ps.filter (fun p => !(count_lines fs p).isOk)).length := by
  induction ps with
  | nil => simp
  | cons p rest ih =>
      have hfc : List.filter (fun p => !(count_lines fs p).isOk) (p :: rest) =
          (if !(count_lines fs p).isOk then [p] else []) ++
            List.filter (fun p => !(count_lines fs p).isOk) rest := by
        by_cases h : (!(count_lines fs p).isOk) = true
        · simp [List.filter_cons, h]
        · simp [List.filter_cons, h]
      cases h : count_lines fs p with
      | ok n =>
          have h1 : okOne (resultFor fs p) = 1 := by simp [resultFor, h, okOne]
          have h2 : (!(count_lines fs p).isOk) = false := by
            simp [h, Except.isOk, Except.toBool]
          rw [List.map_cons, List.map_cons, List.sum_cons, hfc, h1, h2,
            List.length_append, List.length_cons, ih]
          simp
          omega
      | error e =>
          have h1 : okOne (resultFor fs p) = 0 := by simp [resultFor, h, okOne]
          have h2 : (!(count_lines fs p).isOk) = true := by
            simp [h, Except.isOk, Except.toBool]
          rw [List.map_cons, List.map_cons, List.sum_cons, hfc, h1, h2,
            List.length_append, List.length_cons, ih]
          simp
          omega

theorem sum_counts_eq_open_filter (fs : FS) (ps : List FPath) :
    sumValues (collect_stats fs ps).extension_counts =
      (ps.filter (fun q => (fs.openLines q).isOk)).length := by
  rw [collect_stats, statsFold_sum_counts]
  have hsum : ∀ qs : List FPath,
      ((qs.map (resultFor fs)).map okOne).sum =
        (qs.filter (fun q => (fs.openLines q).isOk)).length := by
    intro qs
    induction qs with
    | nil => simp
    | cons q rest ih =>
        have hfc : List.filter (fun q => (fs.openLines q).isOk) (q :: rest) =
            (if (fs.openLines q).isOk then [q] else []) ++
              List.filter (fun q => (fs.openLines q).isOk) rest := by
          by_cases h : (fs.openLines q).isOk = true
          · simp [List.filter_cons, h]
          · simp [List.filter_cons, h]
        cases h : fs.openLines q with
        | ok items =>
            have h1 : okOne (resultFor fs q) = 1 := by
              simp [resultFor, count_lines, h, okOne]
            have h2 : (fs.openLines q).isOk = true := by
              simp [h, Except.isOk, Except.toBool]
            rw [List.map_cons, List.map_cons, List.sum_cons, hfc, h1, h2,
              List.length_append, ih]
            simp
        | error e =>
            have h1 : okOne (resultFor fs q) = 0 := by
              simp [resultFor, count_lines, h, okOne]
            have h2 : (fs.openLines q).isOk = false := by
              simp [h, Except.isOk, Except.toBool]
            rw [List.map_cons, List.map_cons, List.sum_cons, hfc, h1, h2,
              List.length_append, ih]
            simp
  rw [hsum]
  simp [initStats, sumValues]

/-! Extension lemmas. -/

theorem splitLastDot_none_iff (cs : List Char) :
    splitLastDot cs = none ↔ '.' ∉ cs := by
  induction cs with
  | nil => simp [splitLastDot]
  | cons c rest ih =>
      cases h : splitLastDot rest with
      | some q =>
          have : '.' ∈ rest := by
            by_contra hmem
            rw [(ih.mpr hmem)] at h
            exact Option.noConfusion h
          simp only [splitLastDot, h, List.mem_cons]
          constructor
          · intro hfalse
            exact Option.noConfusion hfalse
          · intro hnot
            exact absurd (Or.inr this) hnot
      | none =>
          by_cases hc : c = '.'
          · simp [splitLastDot, h, hc]
          · have hmem : '.' ∉ rest := ih.mp h
            simp only [splitLastDot, h, hc, List.mem_cons]
            constructor
            · intro _ hor
              rcases hor with hor | hor
              · exact hc hor.symm
              · exact hmem hor
            · intro _
              rfl

theorem splitLastDot_cons_ne (c : Char) (rest : List Char) (b a : List Char)
    (hc : c ≠ '.') (h : splitLastDot (c :: rest) = some (b, a)) : b ≠ [] := by
  cases hr : splitLastDot rest with
  | some q =>
      rw [splitLastDot, hr] at h
      cases h
      simp
  | none =>
      rw [splitLastDot, hr] at h
      simp [hc] at h

/-- On any base name the dotfile rule lets through — one not starting with a
dot, or the literal `.` or `..` — the extension `collect_stats` uses agrees
with the specification's "substring after the last period, or empty" rule. -/
theorem rust_ext_eq_spec_ext (name : String)
    (h : startsWithDot name = false ∨ name = "." ∨ name = "..") :
    (rustExtension name).getD "" = specExtension name := by
  rcases h with h | h | h
  · have hne : name ≠ ".." := by
      intro heq
      rw [heq] at h
      simp [startsWithDot] at h
    rw [rustExtension, if_neg hne, specExtension]
    cases hl : name.toList with
    | nil => simp [splitLastDot]
    | cons c rest =>
        have hc : c ≠ '.' := by
          rw [startsWithDot, hl] at h
          simpa using h
        cases hs : splitLastDot (c :: rest) with
        | none => simp
        | some q =>
            obtain ⟨b, a⟩ := q
            have hb : b ≠ [] := splitLastDot_cons_ne c rest b a hc hs
            simp [hb]
  · rw [h]; rfl
  · rw [h]; rfl

/-- Unpack the boolean dotfile rule into the three ways a name can pass it. -/
theorem dotfile_pass_cases (e : DirEntry) (h : dotfileFilter e = true) :
    startsWithDot (fileName e.path) = false ∨ fileName e.path = "." ∨
      fileName e.path = ".." := by
  rw [dotfileFilter] at h
  by_cases h1 : startsWithDot (fileName e.path) = true
  · by_cases h2 : fileName e.path = "."
    · exact Or.inr (Or.inl h2)
    · by_cases h3 : fileName e.path = ".."
      · exact Or.inr (Or.inr h3)
      · rw [h1] at h
        simp [h2, h3] at h
  · exact Or.inl (by simpa using h1)

/-! Traversal lemmas. -/

theorem is_binary_file_ok (fs : FS) (p : FPath) :
    ∃ b, is_binary_file fs p = Except.ok b := by
  rw [is_binary_file]
  cases h : fs.readFile p with
  | none => exact ⟨false, rfl⟩
  | some buffer =>
      dsimp only
      by_cases h1 : fs.inferIsBinary buffer = true
      · rw [if_pos h1]
        exact ⟨true, rfl⟩
      · rw [if_neg h1]
        by_cases h2 : (buffer.take 8000).any (fun b => b == 0) = true
        · rw [if_pos h2]
          exact ⟨true, rfl⟩
        · rw [if_neg h2]
          exact ⟨false, rfl⟩

theorem processOne_ok (fs : FS) (base : FPath) (st : BuildState)
    (r : Except String DirEntry) : ∃ st', processOne fs base st r = Except.ok st' := by
  cases r with
  | error e => exact ⟨st, rfl⟩
  | ok entry =>
      rw [processOne]
      by_cases hb : entry.path = base
      · rw [if_pos hb]
        exact ⟨st, rfl⟩
      · rw [if_neg hb]
        cases hf : entry.ftype with
        | none => exact ⟨st, rfl⟩
        | some ft =>
            cases ft with
            | file =>
                obtain ⟨b, hbin⟩ := is_binary_file_ok fs entry.path
                rw [hbin]
                cases b with
                | true => exact ⟨st, rfl⟩
                | false => exact ⟨_, rfl⟩
            | dir => exact ⟨_, rfl⟩
            | symlink => exact ⟨_, rfl⟩

theorem process_entries_isOk (fs : FS) (base : FPath)
    (entries : List (Except String DirEntry)) :
    ∀ st, (process_entries fs base entries st).isOk = true := by
  induction entries with
  | nil => intro st; rfl
  | cons r rest ih =>
      intro st
      obtain ⟨st', h⟩ := processOne_ok fs base st r
      rw [process_entries, h]
      exact ih st'

/-- Where an accepted-file entry can come from: a path in the state after one
loop iteration was already accepted, or is the path of the regular-file entry
just processed. -/
theorem processOne_files_origin (fs : FS) (base : FPath) (st st' : BuildState)
    (r : Except String DirEntry) (p : FPath)
    (h : processOne fs base st r = Except.ok st') (hp : p ∈ st'.files) :
    p ∈ st.files ∨ ∃ e : DirEntry, r = Except.ok e ∧ e.path = p ∧
      e.ftype = some FType.file := by
  cases r with
  | error e =>
      rw [processOne] at h
      cases h
      exact Or.inl hp
  | ok entry =>
      rw [processOne] at h
      by_cases hb : entry.path = base
      · rw [if_pos hb] at h
        cases h
        exact Or.inl hp
      · rw [if_neg hb] at h
        cases hf : entry.ftype with
        | none =>
            rw [hf] at h
            cases h
            exact Or.inl hp
        | some ft =>
            rw [hf] at h
            cases ft with
            | file =>
                obtain ⟨b, hbin⟩ := is_binary_file_ok fs entry.path
                rw [hbin] at h
                cases b with
                | true =>
                    cases h
                    exact Or.inl hp
                | false =>
                    cases h
                    rcases List.mem_append.mp hp with hmem | hmem
                    · exact Or.inl hmem
                    · have : p = entry.path := by simpa using hmem
                      exact Or.inr ⟨entry, rfl, this.symm, hf⟩
            | dir =>
                cases h
                exact Or.inl hp
            | symlink =>
                cases h
                exact Or.inl hp

theorem process_entries_files_origin (fs : FS) (base : FPath)
    (entries : List (Except String DirEntry)) :
    ∀ st st' : BuildState, process_entries fs base entries st = Except.ok st' →
      ∀ p ∈ st'.files, p ∈ st.files ∨ ∃ e : DirEntry,
        Except.ok e ∈ entries ∧ e.path = p ∧ e.ftype = some FType.file := by
  induction entries with
  | nil =>
      intro st st' h p hp
      rw [process_entries] at h
      cases h
      exact Or.inl hp
  | cons r rest ih =>
      intro st st' h p hp
      obtain ⟨st1, h1⟩ := processOne_ok fs base st r
      rw [process_entries, h1] at h
      rcases ih st1 st' h p hp with hmem | ⟨e, he, hpath, hft⟩
      · rcases processOne_files_origin fs base st st1 r p h1 hmem with
          hmem' | ⟨e, he, hpath, hft⟩
        · exact Or.inl hmem'
        · exact Or.inr ⟨e, by rw [he]; exact List.mem_cons_self _ _, hpath, hft⟩
      · exact Or.inr ⟨e, List.mem_cons_of_mem _ he, hpath, hft⟩

theorem is_binary_of_nul (fs : FS) (p : FPath) (buf : List Nat)
    (hread : fs.readFile p = some buf) (hnul : 0 ∈ buf.take 8000) :
    is_binary_file fs p = Except.ok true := by
  rw [is_binary_file, hread]
  dsimp only
  by_cases h1 : fs.inferIsBinary buf = true
  · rw [if_pos h1]
  · rw [if_neg h1]
    have h2 : (buf.take 8000).any (fun b => b == 0) = true := by
      rw [List.any_eq_true]
      exact ⟨0, hnul, by simp⟩
    rw [if_pos h2]

/-- Processing a regular-file entry whose path classifies as binary leaves the
state untouched. -/
theorem processOne_binary_skip (fs : FS) (base : FPath) (st : BuildState)
    (e : DirEntry) (hpath : is_binary_file fs e.path = Except.ok true)
    (hft : e.ftype = some FType.file) :
    processOne fs base st (Except.ok e) = Except.ok st := by
  rw [processOne]
  by_cases hb : e.path = base
  · rw [if_pos hb]
  · rw [if_neg hb, hft]
    dsimp only
    rw [hpath]

theorem process_entries_cons (fs : FS) (base : FPath) (r : Except String DirEntry)
    (rest : List (Except String DirEntry)) (st : BuildState) :
    process_entries fs base (r :: rest) st =
      match processOne fs base st r with
      | Except.error e => Except.error e
      | Except.ok st' => process_entries fs base rest st' := rfl

theorem process_entries_drop_binary (fs : FS) (base p : FPath)
    (hbin : is_binary_file fs p = Except.ok true)
    (entries : List (Except String DirEntry)) :
    ∀ st, process_entries fs base entries st =
      process_entries fs base (entries.filter (fun r => !isFileEntryAt p r)) st := by
  induction entries with
  | nil => intro st; rfl
  | cons r rest ih =>
      intro st
      by_cases hr : isFileEntryAt p r = true
      · have hskip : processOne fs base st r = Except.ok st := by
          cases r with
          | error e => simp [isFileEntryAt] at hr
          | ok e =>
              rw [isFileEntryAt] at hr
              have he : e.path = p ∧ e.ftype = some FType.file := of_decide_eq_true hr
              exact processOne_binary_skip fs base st e (he.1 ▸ hbin) he.2
        rw [process_entries_cons, hskip, List.filter_cons_of_neg (by simp [hr])]
        dsimp only
        exact ih st
      · rw [List.filter_cons_of_pos (by simp [hr]), process_entries_cons,
          process_entries_cons]
        cases hpo : processOne fs base st r with
        | error e => rfl
        | ok st' =>
            dsimp only
            exact ih st'

/-- A path that classifies as binary is never appended to the accepted-file
sequence. -/
theorem process_entries_not_mem_binary (fs : FS) (base p : FPath)
    (hbin : is_binary_file fs p = Except.ok true)
    (entries : List (Except String DirEntry)) :
    ∀ st st', p ∉ st.files → process_entries fs base entries st = Except.ok st' →
      p ∉ st'.files := by
  induction entries with
  | nil =>
      intro st st' hmem h
      rw [process_entries] at h
      cases h
      exact hmem
  | cons r rest ih =>
      intro st st' hmem h
      obtain ⟨st1, h1⟩ := processOne_ok fs base st r
      rw [process_entries, h1] at h
      refine ih st1 st' ?_ h
      intro hp1
      rcases processOne_files_origin fs base st st1 r p h1 hp1 with
        hmem' | ⟨e, he, hpath, hft⟩
      · exact hmem hmem'
      · rw [he] at h1
        rw [processOne_binary_skip fs base st e (hpath ▸ hbin) hft] at h1
        cases h1
        exact hmem hp1

/-! Serializer lemmas. -/

theorem foldl_append_singleton (g : α → β) :
    ∀ (l : List α) (w : List β),
      l.foldl (fun acc x => acc ++ [g x]) w = w ++ l.map g := by
  intro l
  induction l with
  | nil => intro w; simp
  | cons x xs ih =>
      intro w
      rw [List.foldl_cons, ih, List.map_cons]
      simp

theorem contentLoop_eq (w : List String) (ls : List String) :
    contentLoop w ls = w ++ ls.enum.map numberLine := by
  rw [contentLoop, foldl_append_singleton]

theorem writeFileContents_eq (fs : FS) :
    ∀ (paths : List FPath) (w : List String),
      writeFileContents fs paths w = w ++ (paths.map (fileBlock fs)).flatten := by
  intro paths
  induction paths with
  | nil => intro w; simp [writeFileContents]
  | cons p rest ih =>
      intro w
      rw [writeFileContents]
      cases h : fs.readToString p with
      | ok content =>
          dsimp only
          rw [ih, contentLoop_eq]
          simp [fileBlock, h]
      | error err =>
          dsimp only
          rw [ih]
          simp [fileBlock, h]

/-! Schedule lemmas for the parallel statistics stage. -/

theorem getElem?_set' (v : α) :
    ∀ (l : List α) (i j : Nat),
      (l.set i v)[j]? = if i = j ∧ j < l.length then some v else l[j]? := by
  intro l
  induction l with
  | nil => intro i j; simp
  | cons a t ih =>
      intro i j
      cases i with
      | zero =>
          cases j with
          | zero => simp
          | succ j' => simp
      | succ i' =>
          cases j with
          | zero => simp
          | succ j' =>
              rw [List.set_cons_succ, List.getElem?_cons_succ, List.getElem?_cons_succ,
                ih i' j']
              by_cases h : i' = j' ∧ j' < t.length
              · rw [if_pos h, if_pos ⟨by omega, by simp; omega⟩]
              · rw [if_neg h, if_neg (by simp; omega)]

theorem length_runSchedule (f : Nat → α) :
    ∀ (sched : List Nat) (slots : List (Option α)),
      (runSchedule f sched slots).length = slots.length := by
  intro sched
  induction sched with
  | nil => intro slots; rfl
  | cons i rest ih =>
      intro slots
      have hstep : runSchedule f (i :: rest) slots =
          runSchedule f rest (slots.set i (some (f i))) := rfl
      rw [hstep, ih, List.length_set]

theorem runSchedule_getElem? (f : Nat → α) :
    ∀ (sched : List Nat) (slots : List (Option α)) (j : Nat),
      (runSchedule f sched slots)[j]? =
        if j ∈ sched ∧ j < slots.length then some (some (f j)) else slots[j]? := by
  intro sched
  induction sched with
  | nil => intro slots j; simp [runSchedule]
  | cons i rest ih =>
      intro slots j
      have hstep : runSchedule f (i :: rest) slots =
          runSchedule f rest (slots.set i (some (f i))) := rfl
      rw [hstep, ih, List.length_set, getElem?_set']
      by_cases h1 : j ∈ rest ∧ j < slots.length
      · rw [if_pos h1, if_pos ⟨List.mem_cons_of_mem _ h1.1, h1.2⟩]
      · rw [if_neg h1]
        by_cases h2 : i = j ∧ j < slots.length
        · rw [if_pos h2, if_pos ⟨by rw [← h2.1]; exact List.mem_cons_self _ _, h2.2⟩,
            h2.1]
        · rw [if_neg h2, if_neg ?_]
          intro hcon
          rcases List.mem_cons.mp hcon.1 with heq | hmem
          · exact h2 ⟨heq.symm, hcon.2⟩
          · exact h1 ⟨hmem, hcon.2⟩

theorem list_eq_of_getElem? :
    ∀ (l₁ l₂ : List α), (∀ j : Nat, l₁[j]? = l₂[j]?) → l₁ = l₂ := by
  intro l₁
  induction l₁ with
  | nil =>
      intro l₂ h
      cases l₂ with
      | nil => rfl
      | cons b t => exact absurd (h 0) (by simp)
  | cons a t ih =>
      intro l₂ h
      cases l₂ with
      | nil => exact absurd (h 0) (by simp)
      | cons b t' =>
          have h0 := h 0
          simp at h0
          rw [h0, ih t' (fun j => by have := h (j + 1); simpa using this)]

theorem parMap_covered (f : Nat → α) (d : α) (n : Nat) (sched : List Nat)
    (h : ∀ i, i < n → i ∈ sched) : parMap f d n sched = (List.range n).map f := by
  apply list_eq_of_getElem?
  intro j
  rw [parMap, List.getElem?_map, runSchedule_getElem?, List.getElem?_map]
  by_cases hj : j < n
  · rw [if_pos ⟨h j hj, by simpa using hj⟩, List.getElem?_range hj]
    rfl
  · rw [if_neg (by simp; omega), List.getElem?_replicate,
      if_neg hj, List.getElem?_eq_none (by simpa using Nat.le_of_not_lt hj)]
    rfl

theorem map_getD_range (g : FPath → β) :
    ∀ ps : List FPath,
      (List.range ps.length).map (fun i => g (ps.getD i [])) = ps.map g := by
  intro ps
  induction ps with
  | nil => simp
  | cons a rest ih =>
      rw [List.length_cons, List.range_succ_eq_map, List.map_cons, List.map_map,
        List.map_cons]
      have : ((fun i => g ((a :: rest).getD i [])) ∘ (· + 1)) =
          fun i => g (rest.getD i []) := by
        funext i
        simp [List.getD]
      rw [this, ih]
      rfl

theorem collect_stats_par_covered (fs : FS) (ps : List FPath) (sched : List Nat)
    (h : ∀ i, i < ps.length → i ∈ sched) :
    collect_stats_par fs sched ps = collect_stats fs ps := by
  rw [collect_stats_par, collect_stats,
    parMap_covered _ _ _ _ h, map_getD_range (resultFor fs) ps]

/-! Claim theorems. -/

/-- Claim C1.  The claim says every distinct directory is represented by
exactly one node of the rendered tree.  On the spec's own nested-path
scenario — directories `src` and `src/lib` plus the file `src/lib/mod.rs` —
the code instead produces a flat tree: because `begin_child(label)` of the
`ptree` builder appends a fresh node rather than navigating to the existing
node with that label, the run yields three disconnected top-level children
labelled `/repo`, `src` and `src/lib`, and the directory `src` is represented
by two distinct nodes (a leaf under the `/repo`-labelled node and the node
holding `lib`), as the label count 2 records. -/
theorem c1_directory_node_duplicated :
    runTraversal fsDemo demoBase demoEntries =
      Except.ok ⟨⟨⟨"/repo", [⟨"/repo", [⟨"src", []⟩]⟩, ⟨"src", [⟨"lib", []⟩]⟩,
          ⟨"src/lib", [⟨"mod.rs", []⟩]⟩]⟩, 0⟩,
        [["/repo"], ["/repo", "src"], ["/repo", "src", "lib"]],
        [["/repo", "src", "lib", "mod.rs"]]⟩ ∧
    countLabelAux 5 "src"
      ⟨"/repo", [⟨"/repo", [⟨"src", []⟩]⟩, ⟨"src", [⟨"lib", []⟩]⟩,
        ⟨"src/lib", [⟨"mod.rs", []⟩]⟩]⟩ = 2 := ⟨rfl, rfl⟩

/-- Claim C2.  The entry whose path equals the base directory is indeed
skipped and the root is never appended to the accepted-file sequence (the
run's `files` below holds only `a.txt`), but the root does not appear "only as
the tree's base label": inserting any top-level item goes through
`begin_child` with the base directory's display string, which appends a child
node carrying the root's label, so the built tree contains a second `/repo`
besides the root (label count 2, one of them a non-root node). -/
theorem c2_root_label_appears_as_node :
    runTraversal fsDemo demoBase rootEntries =
      Except.ok ⟨⟨⟨"/repo", [⟨"/repo", [⟨"a.txt", []⟩]⟩]⟩, 0⟩,
        [["/repo"]], [["/repo", "a.txt"]]⟩ ∧
    countLabelAux 5 "/repo" ⟨"/repo", [⟨"/repo", [⟨"a.txt", []⟩]⟩]⟩ = 2 := ⟨rfl, rfl⟩

/-- Claim C3: for every path in the accepted-file sequence of a traversal
whose file entries passed the walker's dotfile rule, the extension used by
`collect_stats` (`statsExtension`) equals the substring of the base name after
its last period, or the empty string if none (`specExtension`). -/
theorem c3_stats_extension_matches_spec (fs : FS) (base : FPath)
    (entries : List (Except String DirEntry)) (st : BuildState)
    (hfilt : ∀ e : DirEntry, Except.ok e ∈ entries → e.ftype = some FType.file →
      dotfileFilter e = true)
    (hrun : runTraversal fs base entries = Except.ok st) :
    ∀ p ∈ st.files, statsExtension p = specExtension (fileName p) := by
  intro p hp
  rw [runTraversal] at hrun
  rcases process_entries_files_origin fs base entries _ st hrun p hp with
    hmem | ⟨e, he, hpath, hft⟩
  · simp at hmem
  · have hd := hfilt e he hft
    rw [statsExtension, ← hpath]
    exact rust_ext_eq_spec_ext (fileName e.path) (dotfile_pass_cases e hd)

/-- Witness for C3 at a concrete run accepting the single file
`/repo/main.rs`. -/
theorem c3_witness :
    statsExtension ["/repo", "main.rs"] = specExtension (fileName ["/repo", "main.rs"]) := by
  refine c3_stats_extension_matches_spec fsDemo demoBase singleEntries
    ⟨⟨⟨"/repo", [⟨"/repo", [⟨"main.rs", []⟩]⟩]⟩, 0⟩, [["/repo"]], [["/repo", "main.rs"]]⟩
    ?_ rfl ["/repo", "main.rs"] ?_
  · intro e he hf
    have : e = ⟨["/repo", "main.rs"], some FType.file⟩ := by
      simpa [singleEntries] using he
    rw [this]
    decide
  · simp

/-- Claim C4: for every accepted-file sequence, the statistics satisfy
`total_lines = sum of extension_lines values` and
`total_files = sum of extension_counts values + number of files whose
line-counting failed`. -/
theorem c4_totals_balance (fs : FS) (ps : List FPath) :
    (collect_stats fs ps).total_lines = sumValues (collect_stats fs ps).extension_lines ∧
    (collect_stats fs ps).total_files = sumValues (collect_stats fs ps).extension_counts +
      (ps.filter (fun p => !(count_lines fs p).isOk)).length := by
  constructor
  · rw [collect_stats, statsFold_total_lines, statsFold_sum_lines]
    simp [initStats, sumValues]
  · rw [collect_stats, statsFold_total_files, statsFold_sum_counts]
    have h0 : sumValues (initStats ps).extension_counts = 0 := rfl
    have h1 : (initStats ps).total_files = ps.length := rfl
    rw [h0, h1, Nat.zero_add]
    exact length_eq_ok_add_err fs ps

/-- Claim C5: a file whose readable content has a NUL byte among its first
8000 bytes classifies as binary; consequently the whole run (tree and
accepted files) is identical to the run with that file's entries removed, and
the path never enters the accepted-file sequence — from which both the
content section and the statistics are computed. -/
theorem c5_nul_file_skipped (fs : FS) (p : FPath) (buf : List Nat)
    (hread : fs.readFile p = some buf) (hnul : 0 ∈ buf.take 8000) :
    is_binary_file fs p = Except.ok true ∧
    (∀ (base : FPath) (entries : List (Except String DirEntry)) (st0 : BuildState),
      process_entries fs base entries st0 =
        process_entries fs base (entries.filter (fun r => !isFileEntryAt p r)) st0) ∧
    (∀ (base : FPath) (entries : List (Except String DirEntry)) (st : BuildState),
      runTraversal fs base entries = Except.ok st → p ∉ st.files) := by
  have hbin := is_binary_of_nul fs p buf hread hnul
  refine ⟨hbin, ?_, ?_⟩
  · intro base entries st0
    exact process_entries_drop_binary fs base p hbin entries st0
  · intro base entries st hrun
    rw [runTraversal] at hrun
    exact process_entries_not_mem_binary fs base p hbin entries _ st (by simp) hrun

/-- Witness for C5 on a file consisting of one NUL byte. -/
theorem c5_witness : is_binary_file fsNul ["/repo", "b.bin"] = Except.ok true :=
  (c5_nul_file_skipped fsNul ["/repo", "b.bin"] [0] rfl (by decide)).1

/-- Claim C6: the binary classifier always returns a boolean (`Except.ok`),
an unreadable file classifies as non-binary, and consequently the
`process_entries` loop — whose only fallible step is the classifier call —
never returns an error. -/
theorem c6_classifier_never_errors (fs : FS) (p : FPath) :
    (∃ b, is_binary_file fs p = Except.ok b) ∧
    (fs.readFile p = none → is_binary_file fs p = Except.ok false) ∧
    (∀ (base : FPath) (entries : List (Except String DirEntry)) (st0 : BuildState),
      (process_entries fs base entries st0).isOk = true) := by
  refine ⟨is_binary_file_ok fs p, ?_, ?_⟩
  · intro h
    rw [is_binary_file, h]
  · intro base entries st0
    exact process_entries_isOk fs base entries st0

/-- Witness for C6 on a filesystem where every read fails. -/
theorem c6_witness : is_binary_file fsNone ["/repo", "f"] = Except.ok false :=
  (c6_classifier_never_errors fsNone ["/repo", "f"]).2.1 rfl

/-- Claim C7: a user pattern the glob compiler rejects excludes nothing — the
rule built from it accepts every entry, and under the walker's
last-predicate-wins `filter_entry` semantics no traversal entry is rejected
because of the bad pattern: an entry the walker rejects with the bad pattern
installed is also rejected without it (when the bad pattern is not last it is
inert, and when it is last the live predicate accepts everything).
`build_walker` performs no fallible operation, so installing the pattern
cannot abort the run. -/
theorem c7_bad_pattern_excludes_nothing (compile : String → Option (String → Bool))
    (bad : String) (h : compile bad = none) (pre post : List String) (e : DirEntry) :
    patternFilter compile bad e = true ∧
    (walkerFilter compile (pre ++ bad :: post) e = false →
      walkerFilter compile (pre ++ post) e = false) := by
  have hbad : patternFilter compile bad e = true := by simp [patternFilter, h]
  refine ⟨hbad, ?_⟩
  intro hrej
  cases post with
  | nil =>
      rw [walkerFilter, List.getLast?_append] at hrej
      simp at hrej
      rw [hbad] at hrej
      exact absurd hrej (by simp)
  | cons q rest =>
      rw [walkerFilter, List.getLast?_append] at hrej
      rw [walkerFilter, List.getLast?_append]
      simpa using hrej

/-- Witness for C7 with a compiler that rejects every pattern. -/
theorem c7_witness :
    patternFilter (fun _ => none) "[" ⟨["/repo", "x.rs"], some FType.file⟩ = true ∧
    (walkerFilter (fun _ => none) (["*.log"] ++ "[" :: [])
        ⟨["/repo", "x.rs"], some FType.file⟩ = false →
      walkerFilter (fun _ => none) (["*.log"] ++ [])
        ⟨["/repo", "x.rs"], some FType.file⟩ = false) :=
  c7_bad_pattern_excludes_nothing (fun _ => none) "[" rfl ["*.log"] []
    ⟨["/repo", "x.rs"], some FType.file⟩

/-- Claim C8: the content serializer emits, for each accepted file in
sequence order, exactly the path header, the 80-character separator, the
numbered content lines (1-based, ` | ` delimiter) — or a single
`Error reading file` line when the text cannot be read, the run continuing —
then the closing separator and a blank line. -/
theorem c8_serializer_format (fs : FS) (paths : List FPath) (w : List String) :
    writeFileContents fs paths w = w ++ (paths.map (fileBlock fs)).flatten ∧
    sepLine.length = 80 :=
  ⟨writeFileContents_eq fs paths w, rfl⟩

/-- Claim C9: after a successful open, `count_lines` always returns a count —
the count of all line-read attempts, failed ones included, one each — and it
returns an error exactly for an open failure; accordingly a file enters the
extension tables if and only if it could be opened. -/
theorem c9_only_open_failure_excludes (fs : FS) (p : FPath) :
    (∀ items, fs.openLines p = Except.ok items →
      count_lines fs p = Except.ok items.length ∧
      items.length = items.countP (fun i => i.isOk) +
        items.countP (fun i => !i.isOk)) ∧
    (∀ e, fs.openLines p = Except.error e → count_lines fs p = Except.error e) ∧
    (∀ ps : List FPath, sumValues (collect_stats fs ps).extension_counts =
      (ps.filter (fun q => (fs.openLines q).isOk)).length) := by
  refine ⟨?_, ?_, ?_⟩
  · intro items h
    refine ⟨by rw [count_lines, h], ?_⟩
    clear h
    induction items with
    | nil => rfl
    | cons i rest ih =>
        rw [List.countP_cons, List.countP_cons, List.length_cons, ih]
        by_cases hi : i.isOk = true
        · simp [hi]
          omega
        · simp [hi]
          omega
  · intro e h
    rw [count_lines, h]
  · intro ps
    exact sum_counts_eq_open_filter fs ps

/-- Witness for C9 on a file that opens but whose second line read fails:
both attempts are counted. -/
theorem c9_witness : count_lines fsOpen ["/repo", "f"] = Except.ok 2 :=
  ((c9_only_open_failure_excludes fsOpen ["/repo", "f"]).1
    [Except.ok "hi", Except.error "bad byte"] rfl).1

/-- Claim C10: two executions of the parallel statistics stage under any two
task-completion schedules that run every per-file task produce identical
`FileStats` (hence every field agrees), and both agree with the sequential
`collect_stats`. -/
theorem c10_schedule_determinism (fs : FS) (ps : List FPath) (s₁ s₂ : List Nat)
    (h₁ : ∀ i, i < ps.length → i ∈ s₁) (h₂ : ∀ i, i < ps.length → i ∈ s₂) :
    collect_stats_par fs s₁ ps = collect_stats_par fs s₂ ps ∧
    collect_stats_par fs s₁ ps = collect_stats fs ps := by
  have e1 := collect_stats_par_covered fs ps s₁ h₁
  have e2 := collect_stats_par_covered fs ps s₂ h₂
  exact ⟨by rw [e1, e2], e1⟩

/-- Witness for C10 with two different complete schedules over two files. -/
theorem c10_witness :
    collect_stats_par fsDemo [1, 0, 1] [["/repo", "a.txt"], ["/repo", "b.rs"]] =
      collect_stats_par fsDemo [0, 1] [["/repo", "a.txt"], ["/repo", "b.rs"]] ∧
    collect_stats_par fsDemo [1, 0, 1] [["/repo", "a.txt"], ["/repo", "b.rs"]] =
      collect_stats fsDemo [["/repo", "a.txt"], ["/repo", "b.rs"]] :=
  c10_schedule_determinism fsDemo [["/repo", "a.txt"], ["/repo", "b.rs"]]
    [1, 0, 1] [0, 1] (by decide) (by decide)

end RepoSummarizer
